import Mathlib

/-!
# Verification of the page2cbr image-archive pipeline

A shallow embedding, in Lean 4, of the core pipeline of `page2cbr.py`
(URL extraction, normalization/deduplication, natural-sort ordering,
per-item download with validation, archive assembly with CBR→CBZ
fallback), together with theorems settling the specification claims.

Modelling conventions:
* Python strings are modelled as `String`/`List Char`; character classes
  (`\d` of `re`, `str.isdigit`, `str.lower`, `str.strip` whitespace) are
  modelled over ASCII, which is the alphabet of URLs and filenames this
  program manipulates.
* Functions from the Python standard library that the source calls
  (`re.split`, `urllib.parse.urlsplit/urlparse/urljoin`,
  `os.path.splitext`, `html.unescape`) are translated from CPython 3.11
  (`urllib/parse.py`, `genericpath.py`); `html.unescape` is modelled on
  the five standard entities of HTML attribute values (a faithful
  subset — no claim depends on the entity table).
* The file system, HTTP responses and the external `rar` process are
  modelled as explicit values/state passed into the functions that
  consume them.
-/

/-! ## Character helpers (ASCII models of the Python character classes) -/

/-- ASCII decimal digit: models both `\d` of `re` and `str.isdigit`
restricted to ASCII. -/
def isDig (c : Char) : Bool := '0' ≤ c ∧ c ≤ '9'

/-- ASCII whitespace stripped by Python `str.strip()`. -/
def pyIsSpace (c : Char) : Bool :=
  c = ' ' ∨ c = '\t' ∨ c = '\n' ∨ c = '\r' ∨ c = '\x0b' ∨ c = '\x0c'

/-- ASCII lowercasing, models `str.lower` on the ASCII range. -/
def lowerChar (c : Char) : Char := c.toLower

/-- `needle in haystack` for Python strings (substring containment). -/
def listContainsSub (needle haystack : List Char) : Bool :=
  haystack.tails.any (fun t => needle.isPrefixOf t)

/-- `int(t)` on a string of ASCII decimal digits. -/
def decodeDec (l : List Char) : Nat :=
  l.foldl (fun a c => a * 10 + (c.toNat - 48)) 0

/-! ## `natural_key` (page2cbr.py lines 19–21)

```python
def natural_key(s: str):
    # Natural sort: "10" > "2"
    return [int(t) if t.isdigit() else t.lower() for t in re.split(r"(\d+)", s)]
```

`re.split(r"(\d+)", s)` returns the maximal digit runs of `s` (the
captured groups) interleaved with the possibly-empty non-digit chunks
between them; the list starts and ends with a non-digit chunk. -/

/-- `re.split(r"(\d+)", s)` on the character list of `s`: alternating
(possibly empty) digit-free chunks and (nonempty) maximal digit runs.
A digit char starts or extends the digit run that follows the leading
empty chunk of the tail's split; a non-digit char extends the leading
chunk.  The lemma `splitD_cons_digit` below restates the digit case in
closed form: the maximal digit run is the char plus `takeWhile isDig`
of the tail. -/
def splitDCons (c : Char) (rest : List Char) (r : List (List Char)) :
    List (List Char) :=
  if isDig c then
    match rest, r with
    | r0 :: _, [] :: d :: tail =>
      if isDig r0 then [] :: (c :: d) :: tail else [] :: [c] :: r
    | _, _ => [] :: [c] :: r
  else
    match r with
    | [] => [[c]]          -- unreachable: splitD never returns []
    | s :: t => (c :: s) :: t

/-- See above: the split itself. -/
def splitD : List Char → List (List Char)
  | [] => [[]]
  | c :: rest => splitDCons c rest (splitD rest)

/-- An element of a Python natural-sort key: a (lowercased) string chunk
or an integer decoded from a digit run. -/
inductive KElem where
  | s (v : List Char)
  | n (v : Nat)
deriving DecidableEq, Repr

/-- `int(t) if t.isdigit() else t.lower()` applied to one chunk. -/
def convChunk (t : List Char) : KElem :=
  if t ≠ [] ∧ t.all isDig then .n (decodeDec t) else .s (t.map lowerChar)

/-- `natural_key` itself. -/
def natural_key (s : String) : List KElem :=
  (splitD s.data).map convChunk

/-! ### Ordering on keys (Python `<` on the returned lists) -/

/-- Character comparison by code point, as Python compares `str`. -/
def chrCmp (a b : Char) : Ordering :=
  if a.val < b.val then .lt else if b.val < a.val then .gt else .eq

/-- Lexicographic comparison of Python strings. -/
def strCmpL : List Char → List Char → Ordering
  | [], [] => .eq
  | [], _ :: _ => .lt
  | _ :: _, [] => .gt
  | a :: as_, b :: bs =>
    match chrCmp a b with
    | .eq => strCmpL as_ bs
    | o => o

/-- Comparison of `Nat` written out explicitly. -/
def natCmp (a b : Nat) : Ordering :=
  if a < b then .lt else if b < a then .gt else .eq

/-- Comparison of two key elements.  Python raises `TypeError` on an
`int`/`str` comparison; the two mismatched branches below are arbitrary
placeholders, and the alternation theorem for `natural_key` shows the
comparison of two natural keys never reaches them. -/
def kelemCmp : KElem → KElem → Ordering
  | .s a, .s b => strCmpL a b
  | .n a, .n b => natCmp a b
  | .n _, .s _ => .lt
  | .s _, .n _ => .gt

/-- Lexicographic comparison of key lists, as Python compares lists. -/
def keyCmp : List KElem → List KElem → Ordering
  | [], [] => .eq
  | [], _ :: _ => .lt
  | _ :: _, [] => .gt
  | a :: as_, b :: bs =>
    match kelemCmp a b with
    | .eq => keyCmp as_ bs
    | o => o

/-- `natural_key a < natural_key b` in Python's ordering. -/
def keyLt (a b : List KElem) : Bool := keyCmp a b = .lt

/-- Stable insertion of `x` into a key-sorted list: `x` goes before the
first element whose key is not smaller. -/
def insertByKey (x : String) : List String → List String
  | [] => [x]
  | y :: ys =>
    if keyCmp (natural_key x) (natural_key y) ≠ .gt then x :: y :: ys
    else y :: insertByKey x ys

/-- `sorted(l, key=natural_key)`.  Python's `sorted` is a stable sort;
`keyCmp` is a total preorder, and a stable sort by a total preorder has
a unique result, computed here by the (stable) insertion sort. -/
def sortedNatural : List String → List String
  | [] => []
  | x :: xs => insertByKey x (sortedNatural xs)

/-! ## `is_probably_image_url` (lines 16, 24–25)

```python
IMG_EXT_RE = re.compile(r"\.(jpe?g|png|gif|webp|bmp|tiff?)(\?|#|$)", re.IGNORECASE)

def is_probably_image_url(u: str) -> bool:
    return bool(IMG_EXT_RE.search(u))
```
-/

/-- The alternatives of the extension group (expanding `jpe?g` and
`tiff?`). -/
def imgExtAlts : List (List Char) :=
  ["jpeg", "jpg", "png", "gif", "webp", "bmp", "tiff", "tif"].map String.data

/-- `(\?|#|$)` after the extension. -/
def imgExtTail (l : List Char) : Bool :=
  match l with
  | [] => true
  | c :: _ => c = '?' ∨ c = '#'

/-- Does the regex match starting exactly at this suffix? -/
def imgExtMatchAt (l : List Char) : Bool :=
  match l with
  | '.' :: rest =>
    imgExtAlts.any (fun e =>
      (rest.take e.length).map lowerChar = e ∧ imgExtTail (rest.drop e.length))
  | _ => false

/-- `IMG_EXT_RE.search(u)` as a Boolean. -/
def is_probably_image_url (u : String) : Bool :=
  u.data.tails.any imgExtMatchAt

/-! ## `clean_url` (lines 28–33)

```python
def clean_url(u: str) -> str:
    u = unescape(u).strip()
    # Remove surrounding quotes if present
    if (u.startswith('"') and u.endswith('"')) or (u.startswith("'") and u.endswith("'")):
        u = u[1:-1]
    return u.strip()
```
-/

/-- `str.strip()` on a character list. -/
def pyStrip (l : List Char) : List Char :=
  ((l.dropWhile pyIsSpace).reverse.dropWhile pyIsSpace).reverse

/-- Modelled from CPython `html.unescape`, restricted to a faithful
subset: the five standard entities of HTML attribute values (`&amp;`
`&lt;` `&gt;` `&quot;` `&#39;`), each with its closing semicolon.  No
claim depends on the full HTML5 entity table: `unescape` is the first
normalization step on both the code side and the spec side of every
statement that mentions it. -/
def pyUnescapeGo : Nat → List Char → List Char
  | 0, l => l                          -- fuel exhausted; never reached from pyUnescape
  | _ + 1, [] => []
  | fuel + 1, '&' :: rest =>
    if ("amp;".data).isPrefixOf rest then '&' :: pyUnescapeGo fuel (rest.drop 4)
    else if ("lt;".data).isPrefixOf rest then '<' :: pyUnescapeGo fuel (rest.drop 3)
    else if ("gt;".data).isPrefixOf rest then '>' :: pyUnescapeGo fuel (rest.drop 3)
    else if ("quot;".data).isPrefixOf rest then '"' :: pyUnescapeGo fuel (rest.drop 5)
    else if ("#39;".data).isPrefixOf rest then '\'' :: pyUnescapeGo fuel (rest.drop 4)
    else '&' :: pyUnescapeGo fuel rest
  | fuel + 1, c :: rest => c :: pyUnescapeGo fuel rest

/-- See above: the scan itself, with enough fuel to finish. -/
def pyUnescape (l : List Char) : List Char := pyUnescapeGo l.length l

/-- Strip one layer of surrounding matching quote characters (the
`if (u.startswith('"') and u.endswith('"')) or ...: u = u[1:-1]` step).
Note Python's `u[1:-1]` on a single-character string yields `""`, which
the head/getLast formulation below reproduces via `drop 1` and
`dropLast`. -/
def stripOuterQuotes (l : List Char) : List Char :=
  if (l.head? = some '"' ∧ l.getLast? = some '"') ∨
     (l.head? = some '\'' ∧ l.getLast? = some '\'') then
    (l.drop 1).dropLast
  else l

/-- `clean_url` (lines 28–33), statement by statement. -/
def clean_url (u : String) : String :=
  let u1 := pyStrip (pyUnescape u.data)
  let u2 := stripOuterQuotes u1
  String.mk (pyStrip u2)

/-! ## `urllib.parse` model

Translated from CPython 3.11 `urllib/parse.py` (`urlsplit`, `urlparse`,
`urlunsplit`, `urlunparse`, `urljoin`, `_splitnetloc`, `_splitparams`),
specialized to `str` inputs and `allow_fragments=True`.  The
`ValueError` branches for mismatched IPv6 brackets and the NFKC netloc
check are omitted (modelled as accepting): they concern malformed or
non-ASCII netlocs that no claim exercises. -/

/-- Characters valid in scheme names (`scheme_chars`). -/
def schemeChar (c : Char) : Bool :=
  c.isAlpha ∨ isDig c ∨ c = '+' ∨ c = '-' ∨ c = '.'

/-- `_WHATWG_C0_CONTROL_OR_SPACE` membership. -/
def isC0OrSpace (c : Char) : Bool := c.val ≤ 32

/-- Removal of `_UNSAFE_URL_BYTES_TO_REMOVE` (tab, CR, LF) anywhere. -/
def removeUnsafe (l : List Char) : List Char :=
  l.filter (fun c => ¬(c = '\t' ∨ c = '\r' ∨ c = '\n'))

/-- The five components returned by `urlsplit`. -/
structure SplitResult where
  scheme : List Char
  netloc : List Char
  path : List Char
  query : List Char
  fragment : List Char
deriving DecidableEq, Repr

/-- First index of a character, if present. -/
def idxOfChar (c : Char) (l : List Char) : Option Nat :=
  l.findIdx? (fun x => x = c)

/-- Last index of a character, if present. -/
def lastIdxOfChar (c : Char) (l : List Char) : Option Nat :=
  match idxOfChar c l.reverse with
  | none => none
  | some i => some (l.length - 1 - i)

/-- `url.split(sep, 1)` when `sep` occurs: the pieces before and after
the first occurrence; otherwise the whole string and `[]`. -/
def splitOnce (sep : Char) (l : List Char) : List Char × List Char :=
  match idxOfChar sep l with
  | none => (l, [])
  | some i => (l.take i, l.drop (i + 1))

/-- `_splitnetloc(url, 2)`: the netloc runs to the first of `/?#`. -/
def splitnetloc (l : List Char) : List Char × List Char :=
  let rest := l.drop 2
  let netloc := rest.takeWhile (fun c => ¬(c = '/' ∨ c = '?' ∨ c = '#'))
  (netloc, rest.drop netloc.length)

/-- The scheme-parsing step of `urlsplit`: if the text up to the first
`:` is a nonempty ASCII-letter-headed run of scheme characters, it is
the (lowercased) scheme. -/
def splitScheme (dflt : List Char) (l : List Char) : List Char × List Char :=
  match idxOfChar ':' l with
  | none => (dflt, l)
  | some i =>
    let pre := l.take i
    if 0 < i ∧ (pre.head?.elim false Char.isAlpha) ∧ pre.all schemeChar then
      (pre.map lowerChar, l.drop (i + 1))
    else (dflt, l)

/-- `urlsplit(url, scheme)` with `allow_fragments=True`. -/
def urlsplit (dfltScheme : List Char) (url0 : List Char) : SplitResult :=
  let url1 := removeUnsafe (url0.dropWhile isC0OrSpace)
  let dflt := removeUnsafe ((dfltScheme.dropWhile isC0OrSpace).reverse.dropWhile isC0OrSpace).reverse
  let (scheme, url2) := splitScheme dflt url1
  let (netloc, url3) :=
    if url2.take 2 = ['/', '/'] then splitnetloc url2 else ([], url2)
  let (url4, fragment) := if url3.contains '#' then splitOnce '#' url3 else (url3, [])
  let (path, query) := if url4.contains '?' then splitOnce '?' url4 else (url4, [])
  ⟨scheme, netloc, path, query, fragment⟩

/-- The six components returned by `urlparse`. -/
structure ParseResult where
  scheme : List Char
  netloc : List Char
  path : List Char
  params : List Char
  query : List Char
  fragment : List Char
deriving DecidableEq, Repr

/-- `uses_params` from `urllib.parse`. -/
def usesParams : List (List Char) :=
  ["", "ftp", "hdl", "prospero", "http", "imap", "https", "shttp", "rtsp",
   "rtspu", "sip", "sips", "mms", "sftp", "tel"].map String.data

/-- `uses_relative` from `urllib.parse`. -/
def usesRelative : List (List Char) :=
  ["", "ftp", "http", "gopher", "nntp", "imap", "wais", "file", "https",
   "shttp", "mms", "prospero", "rtsp", "rtspu", "sftp", "svn", "svn+ssh",
   "ws", "wss"].map String.data

/-- `uses_netloc` from `urllib.parse`. -/
def usesNetloc : List (List Char) :=
  ["", "ftp", "http", "gopher", "nntp", "telnet", "imap", "wais", "file",
   "mms", "https", "shttp", "snews", "prospero", "rtsp", "rtspu", "rsync",
   "svn", "svn+ssh", "sftp", "nfs", "git", "git+ssh", "ws", "wss"].map String.data

/-- `_splitparams(url)`. -/
def splitparams (p : List Char) : List Char × List Char :=
  if p.contains '/' then
    match lastIdxOfChar '/' p with
    | none => (p, [])               -- unreachable given the contains guard
    | some k =>
      match idxOfChar ';' (p.drop k) with
      | none => (p, [])
      | some j => (p.take (k + j), p.drop (k + j + 1))
  else
    match idxOfChar ';' p with
    | none => (p, [])
    | some j => (p.take j, p.drop (j + 1))

/-- `urlparse(url, scheme)` with `allow_fragments=True`. -/
def urlparse (dfltScheme : List Char) (url : List Char) : ParseResult :=
  let sr := urlsplit dfltScheme url
  if sr.scheme ∈ usesParams ∧ sr.path.contains ';' then
    let (p, par) := splitparams sr.path
    ⟨sr.scheme, sr.netloc, p, par, sr.query, sr.fragment⟩
  else
    ⟨sr.scheme, sr.netloc, sr.path, [], sr.query, sr.fragment⟩

/-- `urlunsplit(components)`. -/
def urlunsplit (scheme netloc url query fragment : List Char) : List Char :=
  let url1 :=
    if netloc ≠ [] ∨ (scheme ≠ [] ∧ scheme ∈ usesNetloc ∧ url.take 2 ≠ ['/', '/']) then
      let u := if url ≠ [] ∧ url.head? ≠ some '/' then '/' :: url else url
      '/' :: '/' :: (netloc ++ u)
    else url
  let url2 := if scheme ≠ [] then scheme ++ ':' :: url1 else url1
  let url3 := if query ≠ [] then url2 ++ '?' :: query else url2
  if fragment ≠ [] then url3 ++ '#' :: fragment else url3

/-- `urlunparse(components)`. -/
def urlunparse (scheme netloc url params query fragment : List Char) : List Char :=
  let u := if params ≠ [] then url ++ ';' :: params else url
  urlunsplit scheme netloc u query fragment

/-- `path.split('/')` — splitting on every occurrence. -/
def splitSlash : List Char → List (List Char)
  | [] => [[]]
  | c :: rest =>
    if c = '/' then [] :: splitSlash rest
    else
      match splitSlash rest with
      | [] => [[c]]              -- unreachable: splitSlash never returns []
      | s :: t => (c :: s) :: t

/-- `'/'.join(parts)`. -/
def joinSlash : List (List Char) → List Char
  | [] => []
  | [x] => x
  | x :: rest => x ++ '/' :: joinSlash rest

/-- `segments[1:-1] = filter(None, segments[1:-1])`: drop empty strings
among the middle elements, keeping the first and last. -/
def filterMiddle (l : List (List Char)) : List (List Char) :=
  match l with
  | [] => []
  | [x] => [x]
  | x :: y :: rest =>
    x :: (((y :: rest).dropLast.filter (fun s => s ≠ [])) ++ [(y :: rest).getLast (by simp)])

/-- The `..`/`.` resolution loop of `urljoin`. -/
def resolveSegs (segs : List (List Char)) : List (List Char) :=
  segs.foldl
    (fun acc seg =>
      if seg = ['.', '.'] then acc.dropLast
      else if seg = ['.'] then acc
      else acc ++ [seg])
    []

/-- `urljoin(base, url)` with `allow_fragments=True`. -/
def urljoin (base url : String) : String :=
  if base = "" then url
  else if url = "" then base
  else
    let b := urlparse [] base.data
    let r := urlparse b.scheme url.data
    if ¬(r.scheme = b.scheme ∧ r.scheme ∈ usesRelative) then url
    else
      let step2 : Option (List Char) :=   -- `some` = early return
        if r.scheme ∈ usesNetloc ∧ r.netloc ≠ [] then
          some (urlunparse r.scheme r.netloc r.path r.params r.query r.fragment)
        else none
      match step2 with
      | some out => String.mk out
      | none =>
        let netloc := if r.scheme ∈ usesNetloc then b.netloc else r.netloc
        if r.path = [] ∧ r.params = [] then
          let q := if r.query = [] then b.query else r.query
          String.mk (urlunparse r.scheme netloc b.path b.params q r.fragment)
        else
          let baseParts0 := splitSlash b.path
          let baseParts :=
            if baseParts0.getLast? ≠ some [] then baseParts0.dropLast else baseParts0
          let segments :=
            if r.path.head? = some '/' then splitSlash r.path
            else filterMiddle (baseParts ++ splitSlash r.path)
          let resolved := resolveSegs segments
          let resolved2 :=
            if segments.getLast? = some ['.'] ∨ segments.getLast? = some ['.', '.'] then
              resolved ++ [[]]
            else resolved
          let rpath := if joinSlash resolved2 = [] then ['/'] else joinSlash resolved2
          String.mk (urlunparse r.scheme netloc rpath r.params r.query r.fragment)

/-! ## Output filename derivation (main, lines 259–264)

```python
ext = os.path.splitext(urlparse(u).path)[1].lower()
if not ext or len(ext) > 6:
    ext = ".jpg"  # fallback
fname = f"{idx:04d}{ext}"
```
-/

/-- The extension component of `os.path.splitext` (posixpath flavour,
translated from CPython `genericpath._splitext`): everything from the
last dot of the final path segment to the end, unless that segment up to
the dot consists solely of dots. -/
def splitextExt (p : List Char) : List Char :=
  let sepIdx : Int := (lastIdxOfChar '/' p).elim (-1) Int.ofNat
  let dotIdx : Int := (lastIdxOfChar '.' p).elim (-1) Int.ofNat
  if sepIdx < dotIdx then
    let between := (p.take dotIdx.toNat).drop (sepIdx + 1).toNat
    if between.any (fun c => c ≠ '.') then p.drop dotIdx.toNat else []
  else []

/-- `f"{idx:04d}"`: decimal digits left-padded with zeros to width 4. -/
def format04 (n : Nat) : List Char :=
  let d := (Nat.repr n).data
  List.replicate (4 - d.length) '0' ++ d

/-- The per-item output filename of the download loop (the path inside
the run's ephemeral image directory; the constant directory prefix is
dropped from the model). -/
def deriveFname (idx : Nat) (u : String) : String :=
  let ext0 := (splitextExt (urlparse [] u.data).path).map lowerChar
  let ext := if ext0 = [] ∨ 6 < ext0.length then ".jpg".data else ext0
  String.mk (format04 idx ++ ext)

/-! ## The extractor's normalize/absolutize/dedupe pass
(`extract_image_urls_from_html`, lines 77–91)

```python
    norm = []
    seen = set()
    for u in urls:
        u = clean_url(u)
        if not u:
            continue
        abs_u = urljoin(base_url, u)
        if abs_u not in seen:
            seen.add(abs_u)
            norm.append(abs_u)
    return norm
```

The collection phase above it (lines 54–75) walks the BeautifulSoup
parse tree and the raw text; the HTML parser is not embedded, so the
collected raw values enter the model as an arbitrary list `urls` — every
claim about this pass is proved for all such lists. -/

/-- The loop body of the pass, with the `seen` set made explicit. -/
def normLoop (base : String) (seen : List String) : List String → List String
  | [] => []
  | u :: rest =>
    let c := clean_url u
    if c = "" then normLoop base seen rest
    else
      let absU := urljoin base c
      if absU ∈ seen then normLoop base seen rest
      else absU :: normLoop base (absU :: seen) rest

/-- The full normalize/absolutize/dedupe pass. -/
def extractNorm (base : String) (urls : List String) : List String :=
  normLoop base [] urls

/-- The multiset of absolute URLs the loop iterates over: each raw value
cleaned, empties skipped, the rest resolved against the base. -/
def collectAbs (base : String) (urls : List String) : List String :=
  urls.filterMap (fun u =>
    let c := clean_url u
    if c = "" then none else some (urljoin base c))

/-- First-occurrence deduplication, as the specification describes it:
keep each value's first occurrence, in order. -/
def dedupFirst : List String → List String
  | [] => []
  | x :: xs => x :: dedupFirst (xs.filter (fun y => y ≠ x))
termination_by l => l.length
decreasing_by
  exact Nat.lt_succ_of_le (List.length_filter_le _ _)

/-! ## `download_one` (lines 98–131) and the download loop (lines 252–278)

```python
@dataclass
class DownloadResult:
    ok: bool
    path: str
    url: str
    reason: str = ""

def download_one(session, url, out_path, referer, timeout):
    ...
    r = session.get(url, ...); r.raise_for_status()
    ctype = (r.headers.get("Content-Type") or "").lower()
    if "image" not in ctype and not is_probably_image_url(url):
        return DownloadResult(False, out_path, url, "Content-Type no parece imagen: ...")
    with open(out_path, "wb") as f:
        for chunk in r.iter_content(...): ...
    if os.path.getsize(out_path) < 1024:
        return DownloadResult(False, out_path, url, "Archivo demasiado pequeño ...")
    return DownloadResult(True, out_path, url)
    # except requests.RequestException -> DownloadResult(False, ..., "HTTP error: ...")
```

The HTTP environment is the nondeterministic input: a response either
fails outright (`requests.RequestException` from `get`/
`raise_for_status`, before any file is opened), or succeeds with a
declared content type and a body; a successful response may still raise
mid-stream (`interrupted`), after its bytes so far were written — the
`OSError` branch behaves identically for the claims and is folded into
the same case. -/

/-- The environment's answer for one request. -/
inductive HttpResponse where
  | failure
  | success (ctype : String) (size : Nat) (interrupted : Bool)
deriving DecidableEq, Repr

/-- Failure reasons (the Python code uses message strings; constructors
stand for `"HTTP error: ..."`/`"FS error: ..."`, `"Content-Type no
parece imagen: ..."`, `"Archivo demasiado pequeño ..."`). -/
inductive FailReason where
  | noFailure
  | httpError
  | notAnImage
  | tooSmall
deriving DecidableEq, Repr

/-- `DownloadResult` of the Python dataclass. -/
structure DownloadResult where
  ok : Bool
  path : String
  url : String
  reason : FailReason
deriving DecidableEq, Repr

/-- The run's working directory: filename ↦ size association list. -/
abbrev FS := List (String × Nat)

/-- `os.remove` / `os.path.exists` combined: drop a name if present. -/
def removeFile (f : String) (dir : FS) : FS :=
  List.filter (fun p => p.1 ≠ f) dir

/-- `open(path, "wb")` + writing `size` bytes: create or truncate. -/
def writeFile (f : String) (size : Nat) (dir : FS) : FS :=
  (f, size) :: removeFile f dir

/-- `os.path.getsize`. -/
def getSize (f : String) (dir : FS) : Nat :=
  ((List.lookup f dir).getD 0)

/-- `download_one`, as a function of the response environment and the
directory state. -/
def download_one (url outPath : String) (resp : HttpResponse) (dir : FS) :
    DownloadResult × FS :=
  match resp with
  | .failure => (⟨false, outPath, url, .httpError⟩, dir)
  | .success ctype size interrupted =>
    if ¬ listContainsSub "image".data (ctype.data.map lowerChar) ∧
       ¬ is_probably_image_url url then
      (⟨false, outPath, url, .notAnImage⟩, dir)
    else
      let dir1 := writeFile outPath size dir
      if interrupted then (⟨false, outPath, url, .httpError⟩, dir1)
      else if getSize outPath dir1 < 1024 then
        (⟨false, outPath, url, .tooSmall⟩, dir1)
      else (⟨true, outPath, url, .noFailure⟩, dir1)

/-- The download loop of `main` (lines 259–278): per item, derive the
positional filename, attempt the download, and on failure remove the
partial file before moving to the next item. -/
def downloadLoop (resp : String → HttpResponse) :
    Nat → FS → List String → List DownloadResult × FS
  | _, dir, [] => ([], dir)
  | idx, dir, u :: rest =>
    let fname := deriveFname idx u
    let step := download_one u fname (resp u) dir
    let dir2 := if step.1.ok then step.2 else removeFile fname step.2
    let next := downloadLoop resp (idx + 1) dir2 rest
    (step.1 :: next.1, next.2)

/-! ## Archiver (lines 144–168) and `main` (lines 186–310) -/

/-- The file list `make_cbr_with_rar` computes and passes to `rar a -ep
-idq` (line 148): the directory's files sorted by `natural_key`; `-ep`
stores no paths, so the archive entries are these bare filenames in this
order. -/
def make_cbr_files (dirFiles : List String) : List String :=
  sortedNatural dirFiles

/-- The entry list `make_cbz_zip` writes (lines 162–168): the
directory's files sorted by `natural_key`, each written with
`arcname=f` (the bare filename, no directory prefix), in order. -/
def make_cbz_entries (dirFiles : List String) : List String :=
  sortedNatural dirFiles

/-- Which archive `main` produced. -/
inductive ArchiveKind where
  | cbr
  | cbz
deriving DecidableEq, Repr

/-- Outcome of one run of `main`: the process exit code and the archive
(kind and ordered entry list) if one was produced. -/
structure RunResult where
  exitCode : Nat
  archive : Option (ArchiveKind × List String)
deriving DecidableEq, Repr

/-- Configuration of a run (the recognized options that steer the
modelled pipeline). -/
structure Config where
  noExtFilter : Bool     -- --no-ext-filter
  maxImages : Nat        -- --max-images (0 = unlimited)
  rarFound : Bool        -- find_rar_executable found a packer
  rarWorks : Bool        -- its invocation exits with returncode 0
deriving DecidableEq, Repr

/-- The candidate pipeline of `main` lines 237–241: extension filter
unless disabled, then truncation to `max_images` when positive. -/
def candsOf (cfg : Config) (urls : List String) : List String :=
  let u1 := if ¬ cfg.noExtFilter then urls.filter is_probably_image_url else urls
  if 0 < cfg.maxImages then u1.take cfg.maxImages else u1

/-- `main` (lines 215–310) from HTML acquisition onward.  Obtaining the
HTML and parsing it with BeautifulSoup are not embedded: the environment
supplies `fetched`, which is `none` when the fetch/render failed (exit
2) and otherwise the extractor's output list, and `resp`, the per-URL
HTTP behaviour of the download phase. -/
def mainModel (cfg : Config) (fetched : Option (List String))
    (resp : String → HttpResponse) : RunResult :=
  match fetched with
  | none => ⟨2, none⟩
  | some urls =>
    let cands := candsOf cfg urls
    if cands.isEmpty then ⟨3, none⟩
    else
      let ordered := sortedNatural cands
      let rd := downloadLoop resp 1 [] ordered
      if rd.1.countP (fun r => r.ok) = 0 then ⟨4, none⟩
      else
        let files := rd.2.map (fun p => p.1)   -- os.listdir(images_dir)
        if cfg.rarFound then
          if cfg.rarWorks then ⟨0, some (.cbr, make_cbr_files files)⟩
          else ⟨0, some (.cbz, make_cbz_entries files)⟩   -- CBR failed, CBZ fallback
        else ⟨0, some (.cbz, make_cbz_entries files)⟩     -- rar not found

/-! # Theorems

## Structure of `re.split(r"(\d+)", ·)` -/

theorem splitD_nil : splitD [] = [[]] := rfl

theorem splitD_cons (c : Char) (rest : List Char) :
    splitD (c :: rest) = splitDCons c rest (splitD rest) := rfl

theorem splitD_ne_nil (l : List Char) : splitD l ≠ [] := by
  match l with
  | [] => simp [splitD]
  | c :: rest =>
    rw [splitD_cons]
    unfold splitDCons
    split
    · split
      · split <;> simp
      · simp
    · split <;> simp

/-- Every `splitD` value is a cons; a convenient destructor. -/
theorem splitD_exists_cons (l : List Char) :
    ∃ s t, splitD l = s :: t := by
  rcases hsp : splitD l with _ | ⟨s, t⟩
  · exact absurd hsp (splitD_ne_nil _)
  · exact ⟨s, t, rfl⟩

theorem splitD_cons_nondigit {c : Char} {rest s : List Char} {t : List (List Char)}
    (hc : isDig c = false) (h : splitD rest = s :: t) :
    splitD (c :: rest) = (c :: s) :: t := by
  rw [splitD_cons, h]
  unfold splitDCons
  rw [if_neg (by simp [hc])]

/-- The digit case of `splitD` in closed form: a digit char heads the
maximal digit run `c :: rest.takeWhile isDig`, and the split continues
with the rest. -/
theorem splitD_cons_digit :
    ∀ (rest : List Char) (c : Char), isDig c = true →
      splitD (c :: rest) =
        [] :: (c :: rest.takeWhile isDig) :: splitD (rest.dropWhile isDig) := by
  intro rest
  induction rest with
  | nil =>
    intro c hc
    rw [splitD_cons, splitD_nil]
    unfold splitDCons
    rw [if_pos hc]
    rfl
  | cons r0 rest ih =>
    intro c hc
    by_cases hr : isDig r0 = true
    · have hrec := ih r0 hr
      rw [splitD_cons, hrec, List.takeWhile_cons_of_pos hr,
        List.dropWhile_cons_of_pos hr]
      unfold splitDCons
      rw [if_pos hc]
      simp [hr]
    · have hr' : isDig r0 = false := by simpa using hr
      obtain ⟨s', t', hst'⟩ := splitD_exists_cons rest
      have hs0 : splitD (r0 :: rest) = (r0 :: s') :: t' :=
        splitD_cons_nondigit hr' hst'
      rw [splitD_cons, hs0,
        List.takeWhile_cons_of_neg (by simp [hr']),
        List.dropWhile_cons_of_neg (by simp [hr']), hs0]
      unfold splitDCons
      rw [if_pos hc]

/-! ### Helpers about `takeWhile`/`dropWhile` -/

theorem takeWhile_of_head_neg {α : Type} {p : α → Bool} {l : List α}
    (h : ∀ c, l.head? = some c → p c = false) : l.takeWhile p = [] := by
  cases l with
  | nil => rfl
  | cons x xs => exact List.takeWhile_cons_of_neg (by simp [h x rfl])

theorem dropWhile_of_head_neg {α : Type} {p : α → Bool} {l : List α}
    (h : ∀ c, l.head? = some c → p c = false) : l.dropWhile p = l := by
  cases l with
  | nil => rfl
  | cons x xs => exact List.dropWhile_cons_of_neg (by simp [h x rfl])

theorem takeWhile_append_all {α : Type} {p : α → Bool} :
    ∀ {l : List α} (r : List α), (∀ x ∈ l, p x = true) →
      (l ++ r).takeWhile p = l ++ r.takeWhile p := by
  intro l
  induction l with
  | nil => intro r _; rfl
  | cons x xs ih =>
    intro r h
    rw [List.cons_append, List.takeWhile_cons_of_pos (h x (by simp)),
      ih r (fun y hy => h y (by simp [hy])), List.cons_append]

theorem dropWhile_append_all {α : Type} {p : α → Bool} :
    ∀ {l : List α} (r : List α), (∀ x ∈ l, p x = true) →
      (l ++ r).dropWhile p = r.dropWhile p := by
  intro l
  induction l with
  | nil => intro r _; rfl
  | cons x xs ih =>
    intro r h
    rw [List.cons_append, List.dropWhile_cons_of_pos (h x (by simp)),
      ih r (fun y hy => h y (by simp [hy]))]

theorem takeWhile_append_of_bad {α : Type} {p : α → Bool} :
    ∀ {l : List α} (r : List α) (x : α), x ∈ l → p x = false →
      (l ++ r).takeWhile p = l.takeWhile p := by
  intro l
  induction l with
  | nil => intro r x hx; simp at hx
  | cons y ys ih =>
    intro r x hx hpx
    by_cases hy : p y = true
    · have hx' : x ∈ ys := by
        rcases List.mem_cons.mp hx with rfl | hx'
        · rw [hy] at hpx; cases hpx
        · exact hx'
      rw [List.cons_append, List.takeWhile_cons_of_pos hy,
        List.takeWhile_cons_of_pos hy, ih r x hx' hpx]
    · rw [List.cons_append, List.takeWhile_cons_of_neg hy,
        List.takeWhile_cons_of_neg hy]

theorem dropWhile_append_of_bad {α : Type} {p : α → Bool} :
    ∀ {l : List α} (r : List α) (x : α), x ∈ l → p x = false →
      (l ++ r).dropWhile p = l.dropWhile p ++ r := by
  intro l
  induction l with
  | nil => intro r x hx; simp at hx
  | cons y ys ih =>
    intro r x hx hpx
    by_cases hy : p y = true
    · have hx' : x ∈ ys := by
        rcases List.mem_cons.mp hx with rfl | hx'
        · rw [hy] at hpx; cases hpx
        · exact hx'
      rw [List.cons_append, List.dropWhile_cons_of_pos hy,
        List.dropWhile_cons_of_pos hy, ih r x hx' hpx]
    · rw [List.cons_append, List.dropWhile_cons_of_neg hy,
        List.dropWhile_cons_of_neg hy, List.cons_append]

/-! ### Alternation: even chunks are digit-free, odd chunks are digit runs -/

/-- A digit-free chunk. -/
def NDChunk (c : List Char) : Prop := ∀ x ∈ c, isDig x = false

/-- A nonempty all-digit chunk. -/
def DChunk (c : List Char) : Prop := c ≠ [] ∧ ∀ x ∈ c, isDig x = true

/-- The invariant of `splitD`'s output. -/
def AltChunks (L : List (List Char)) : Prop :=
  ∀ (i : Nat) (h : i < L.length), if i % 2 = 0 then NDChunk L[i] else DChunk L[i]

theorem altChunks_splitD_aux :
    ∀ (n : Nat) (l : List Char), l.length ≤ n → AltChunks (splitD l) := by
  intro n
  induction n with
  | zero =>
    intro l hl
    have hnil : l = [] := by cases l <;> simp_all
    subst hnil
    rw [splitD_nil]
    intro i h
    simp only [List.length_singleton] at h
    interval_cases i
    simp only [Nat.zero_mod, if_pos rfl]
    intro x hx
    simp at hx
  | succ n ih =>
    intro l hl
    match l with
    | [] =>
      rw [splitD_nil]
      intro i h
      simp only [List.length_singleton] at h
      interval_cases i
      simp only [Nat.zero_mod, if_pos rfl]
      intro x hx
      simp at hx
    | c :: rest =>
      simp only [List.length_cons, Nat.succ_le_succ_iff] at hl
      by_cases hc : isDig c = true
      · rw [splitD_cons_digit rest c hc]
        intro i hlen
        match i with
        | 0 =>
          simp only [Nat.zero_mod, if_pos rfl]
          intro x hx
          simp at hx
        | 1 =>
          rw [if_neg (by decide)]
          simp only [List.getElem_cons_succ, List.getElem_cons_zero]
          refine ⟨by simp, ?_⟩
          intro x hx
          rcases List.mem_cons.mp hx with rfl | hx'
          · exact hc
          · exact List.mem_takeWhile_imp hx'
        | (j + 2) =>
          have hrest : (rest.dropWhile isDig).length ≤ n :=
            le_trans ((List.dropWhile_suffix isDig).sublist.length_le) hl
          have hrec := ih (rest.dropWhile isDig) hrest
          simp only [List.length_cons] at hlen
          have hlen' : j < (splitD (rest.dropWhile isDig)).length := by omega
          have := hrec j hlen'
          have hmod : (j + 2) % 2 = j % 2 := by omega
          simp only [List.getElem_cons_succ, hmod]
          exact this
      · have hc' : isDig c = false := by simpa using hc
        obtain ⟨s, t, hst⟩ := splitD_exists_cons rest
        rw [splitD_cons_nondigit hc' hst]
        have hrec := ih rest hl
        rw [hst] at hrec
        intro i hlen
        match i with
        | 0 =>
          have h0 := hrec 0 (by simp)
          simp only [Nat.zero_mod, if_pos rfl] at h0 ⊢
          intro x hx
          rcases List.mem_cons.mp hx with rfl | hx'
          · exact hc'
          · exact h0 x (by simpa using hx')
        | (j + 1) =>
          have hlen' : j + 1 < (s :: t).length := by simpa using hlen
          have := hrec (j + 1) hlen'
          simpa using this

/-- The chunks of `splitD` alternate: digit-free at even positions,
nonempty digit runs at odd positions. -/
theorem altChunks_splitD (l : List Char) : AltChunks (splitD l) :=
  altChunks_splitD_aux l.length l le_rfl

/-! ### Comparator lemmas -/

theorem chrCmp_self (a : Char) : chrCmp a a = .eq := by simp [chrCmp]

theorem chrCmp_eq_iff (a b : Char) : chrCmp a b = .eq ↔ a = b := by
  constructor
  · intro h
    unfold chrCmp at h
    split_ifs at h with h1 h2
    apply Char.eq_of_val_eq
    simp [UInt32.lt_def] at h1 h2
    exact UInt32.eq_of_val_eq (Fin.le_antisymm h2 h1)
  · rintro rfl; exact chrCmp_self a

theorem strCmpL_self : ∀ l, strCmpL l l = .eq := by
  intro l
  induction l with
  | nil => rfl
  | cons x xs ih => simp [strCmpL, chrCmp_self, ih]

theorem strCmpL_eq_iff : ∀ a b, strCmpL a b = .eq ↔ a = b := by
  intro a
  induction a with
  | nil => intro b; cases b <;> simp [strCmpL]
  | cons x xs ih =>
    intro b
    cases b with
    | nil => simp [strCmpL]
    | cons y ys =>
      by_cases hxy : x = y
      · subst hxy
        simp only [strCmpL, chrCmp_self]
        rw [ih ys]
        simp
      · have hne : chrCmp x y ≠ .eq := fun h => hxy ((chrCmp_eq_iff x y).mp h)
        rcases hc : chrCmp x y with _ | _ | _
        · simp only [strCmpL, hc]
          constructor
          · intro h; cases h
          · intro h; injection h with h1 _; exact absurd h1 hxy
        · exact absurd hc hne
        · simp only [strCmpL, hc]
          constructor
          · intro h; cases h
          · intro h; injection h with h1 _; exact absurd h1 hxy

theorem natCmp_self (a : Nat) : natCmp a a = .eq := by simp [natCmp]

theorem natCmp_lt_of_lt {a b : Nat} (h : a < b) : natCmp a b = .lt := by
  simp [natCmp, h]

theorem kelemCmp_self (x : KElem) : kelemCmp x x = .eq := by
  cases x <;> simp [kelemCmp, strCmpL_self, natCmp_self]

/-- Lexicographic comparison past a common prefix is decided by the
first differing element, whatever the tails are. -/
theorem keyCmp_append (P : List KElem) (x y : KElem) (r r2 : List KElem)
    (h : kelemCmp x y ≠ .eq) :
    keyCmp (P ++ x :: r) (P ++ y :: r2) = kelemCmp x y := by
  induction P with
  | nil =>
    -- `simp` splits the inner match; the `.eq` branch contradicts `h`
    simp only [List.nil_append, keyCmp]
  | cons p P ih =>
    simp only [List.cons_append, keyCmp, kelemCmp_self]
    exact ih

/-! ## Claim C10: key elements alternate string/integer, so key
comparison is total -/

/-- Is this key element a string (as opposed to an integer)? -/
def isStrElem : KElem → Bool
  | .s _ => true
  | .n _ => false

/-- C10. For every input string, the natural-sort key has strings at
even positions and integers at odd positions; hence the elements at
equal positions of any two keys have the same type and comparing two
keys never compares an integer with a string, making the sort total. -/
theorem natural_key_alternation (s t : String) (i : Nat)
    (hs : i < (natural_key s).length) (ht : i < (natural_key t).length) :
    isStrElem ((natural_key s)[i]) = (i % 2 == 0) ∧
    isStrElem ((natural_key s)[i]) = isStrElem ((natural_key t)[i]) := by
  suffices H : ∀ (u : String) (h : i < (natural_key u).length),
      isStrElem ((natural_key u)[i]) = (i % 2 == 0) by
    exact ⟨H s hs, by rw [H s hs, H t ht]⟩
  intro u h
  have hlen : i < (splitD u.data).length := by
    simpa [natural_key] using h
  have halt := altChunks_splitD u.data i hlen
  have hel : (natural_key u)[i] = convChunk ((splitD u.data)[i]) := by
    simp [natural_key]
  rw [hel]
  by_cases hp : i % 2 = 0
  · rw [if_pos hp] at halt
    have hcond : ¬((splitD u.data)[i] ≠ [] ∧ ((splitD u.data)[i]).all isDig = true) := by
      rintro ⟨hne, hall⟩
      obtain ⟨x, hx⟩ := List.exists_mem_of_ne_nil _ hne
      have h1 := halt x hx
      have h2 := List.all_eq_true.mp hall x hx
      rw [h1] at h2
      cases h2
    rw [hp]
    unfold convChunk
    rw [if_neg hcond]
    rfl
  · rw [if_neg hp] at halt
    obtain ⟨hne, hall⟩ := halt
    have hzero : (i % 2 == 0) = false := by
      simp only [beq_eq_false_iff_ne]
      exact hp
    rw [hzero]
    have hcond : (splitD u.data)[i] ≠ [] ∧ ((splitD u.data)[i]).all isDig = true :=
      ⟨hne, List.all_eq_true.mpr hall⟩
    unfold convChunk
    rw [if_pos hcond]
    rfl

theorem natural_key_alternation_witness :
    isStrElem ((natural_key "a1b").get ⟨1, by decide⟩) = ((1 : Nat) % 2 == 0) ∧
    isStrElem ((natural_key "a1b").get ⟨1, by decide⟩) =
      isStrElem ((natural_key "x9").get ⟨1, by decide⟩) :=
  natural_key_alternation "a1b" "x9" 1 (by decide) (by decide)

/-! ## Claim C3: keys first differing at a non-digit segment are ordered
by the plain string order of those segments -/

/-- C3. The natural-sort key compares non-digit segments as strings and
digit runs as integers: whenever the keys of two candidates agree on a
common prefix `K` and then differ at a string segment (`a` vs `b`),
their relative order is exactly the string order of those segments. -/
theorem natural_key_nondigit_segment_order (s t : String) (K : List KElem)
    (a b : List Char) (r r2 : List KElem)
    (hs : natural_key s = K ++ .s a :: r) (ht : natural_key t = K ++ .s b :: r2)
    (hab : a ≠ b) :
    (keyLt (natural_key s) (natural_key t) = true ↔ strCmpL a b = .lt) := by
  have hne : kelemCmp (.s a) (.s b) ≠ .eq := by
    intro hcontra
    have heq : strCmpL a b = .eq := by simpa [kelemCmp] using hcontra
    exact hab ((strCmpL_eq_iff a b).mp heq)
  rw [hs, ht]
  unfold keyLt
  rw [keyCmp_append K _ _ r r2 hne]
  simp [kelemCmp]

theorem natural_key_nondigit_segment_order_witness :
    keyLt (natural_key "a2x") (natural_key "a2y") = true ↔
      strCmpL "x".data "y".data = .lt :=
  natural_key_nondigit_segment_order "a2x" "a2y"
    [.s "a".data, .n 2] "x".data "y".data [] []
    (by decide) (by decide) (by decide)

/-! ## Claim C2: ordering of strings differing in one embedded digit run -/

/-- Appending a digit run in front of a string whose head is not a digit
splits as the empty chunk, the run, then the split of the rest. -/
theorem splitD_digitrun_append (d b : List Char) (hd : d ≠ [])
    (hdd : ∀ c ∈ d, isDig c = true)
    (hb : ∀ c, b.head? = some c → isDig c = false) :
    splitD (d ++ b) = [] :: d :: splitD b := by
  match d, hd with
  | c :: d', _ =>
    rw [List.cons_append, splitD_cons_digit (d' ++ b) c (hdd c (by simp)),
      takeWhile_append_all b (fun x hx => hdd x (by simp [hx])),
      takeWhile_of_head_neg hb,
      dropWhile_append_all b (fun x hx => hdd x (by simp [hx])),
      dropWhile_of_head_neg hb]
    simp

theorem append_singleton_inj {α : Type} {I I2 : List α} {L L2 : α}
    (h : I ++ [L] = I2 ++ [L2]) : I = I2 ∧ L = L2 :=
  List.concat_inj.mp (by simpa [List.concat_eq_append] using h)

theorem getLast?_dropWhile {α : Type} (p : α → Bool) (l : List α)
    (h : l.dropWhile p ≠ []) : (l.dropWhile p).getLast? = l.getLast? := by
  obtain ⟨t, ht⟩ := List.dropWhile_suffix (l := l) p
  conv_rhs => rw [← ht]
  rw [List.getLast?_append, List.getLast?_eq_getLast _ h]
  rfl

/-- Splitting a string that ends in a non-digit, extended by a string
that starts with a digit: the leading chunks (all but the trailing
non-digit chunk `L`) are unchanged, and the extension's split (minus its
leading empty chunk) is appended after `L`. -/
theorem splitD_prepend :
    ∀ (n : Nat) (a x : List Char), a.length ≤ n → a ≠ [] →
      (∀ c, a.getLast? = some c → isDig c = false) →
      (∀ c, x.head? = some c → isDig c = true) → x ≠ [] →
      ∃ I L, splitD a = I ++ [L] ∧ splitD (a ++ x) = I ++ L :: (splitD x).tail := by
  intro n
  induction n with
  | zero =>
    intro a x hlen hne
    cases a with
    | nil => exact absurd rfl hne
    | cons e a' => simp at hlen
  | succ n ih =>
    intro a x hlen hne hlast hxh hxe
    obtain ⟨xh, xt, rfl⟩ : ∃ xh xt, x = xh :: xt := by
      cases x with
      | nil => exact absurd rfl hxe
      | cons xh xt => exact ⟨xh, xt, rfl⟩
    have hxd : isDig xh = true := hxh xh rfl
    have hsx : splitD (xh :: xt) = [] :: (xh :: xt.takeWhile isDig) :: splitD (xt.dropWhile isDig) :=
      splitD_cons_digit xt xh hxd
    cases a with
    | nil => exact absurd rfl hne
    | cons e a' =>
      cases a' with
      | nil =>
        -- a = [e], e not a digit
        have he : isDig e = false := hlast e rfl
        refine ⟨[], [e], ?_, ?_⟩
        · rw [splitD_cons_nondigit he (show splitD [] = [] :: [] from rfl)]
          rfl
        · rw [List.cons_append, List.nil_append,
            splitD_cons_nondigit he hsx, hsx]
          rfl
      | cons f t' =>
        have hlast' : ∀ c, (f :: t').getLast? = some c → isDig c = false := by
          intro c hc
          exact hlast c (by rw [List.getLast?_cons_cons]; exact hc)
        have ha'len : (f :: t').length ≤ n := by
          simpa using hlen
        by_cases he : isDig e = true
        · -- digit head; the trailing non-digit chunk lives inside a'
          obtain ⟨cl, hcl⟩ : ∃ cl, (f :: t').getLast? = some cl :=
            ⟨_, List.getLast?_eq_getLast _ (by simp)⟩
          have hcld : isDig cl = false := hlast' cl hcl
          have hclmem : cl ∈ f :: t' := List.mem_of_mem_getLast? (by simp [hcl])
          have hwne : (f :: t').dropWhile isDig ≠ [] := by
            intro hw
            have := List.dropWhile_eq_nil_iff.mp hw cl hclmem
            rw [hcld] at this
            cases this
          have hwlast : ∀ c, ((f :: t').dropWhile isDig).getLast? = some c → isDig c = false := by
            intro c hc
            rw [getLast?_dropWhile _ _ hwne] at hc
            exact hlast' c hc
          have hwlen : ((f :: t').dropWhile isDig).length ≤ n :=
            le_trans ((List.dropWhile_suffix isDig).sublist.length_le) ha'len
          obtain ⟨I, L, hI1, hI2⟩ :=
            ih ((f :: t').dropWhile isDig) (xh :: xt) hwlen hwne hwlast hxh hxe
          refine ⟨[] :: (e :: (f :: t').takeWhile isDig) :: I, L, ?_, ?_⟩
          · rw [splitD_cons_digit _ e he, hI1]
            simp
          · rw [List.cons_append, splitD_cons_digit _ e he,
              takeWhile_append_of_bad _ cl hclmem hcld,
              dropWhile_append_of_bad _ cl hclmem hcld, hI2]
            simp
        · have he' : isDig e = false := by simpa using he
          obtain ⟨I', L', h1, h2⟩ :=
            ih (f :: t') (xh :: xt) ha'len (by simp) hlast' hxh hxe
          cases I' with
          | nil =>
            have hsa : splitD (f :: t') = L' :: [] := by simpa using h1
            have hsa2 : splitD ((f :: t') ++ (xh :: xt)) = L' :: (splitD (xh :: xt)).tail := by
              simpa using h2
            refine ⟨[], e :: L', ?_, ?_⟩
            · rw [splitD_cons_nondigit he' hsa]
              rfl
            · rw [List.cons_append, splitD_cons_nondigit he' hsa2]
              rfl
          | cons i0 I'' =>
            have hsa : splitD (f :: t') = i0 :: (I'' ++ [L']) := by simpa using h1
            have hsa2 : splitD ((f :: t') ++ (xh :: xt)) =
                i0 :: (I'' ++ L' :: (splitD (xh :: xt)).tail) := by simpa using h2
            refine ⟨(e :: i0) :: I'', L', ?_, ?_⟩
            · rw [splitD_cons_nondigit he' hsa]
              rfl
            · rw [List.cons_append, splitD_cons_nondigit he' hsa2]
              rfl

/-- A nonempty all-digit chunk converts to its integer. -/
theorem convChunk_digitrun (d : List Char) (hd : d ≠ [])
    (hdd : ∀ c ∈ d, isDig c = true) :
    convChunk d = .n (decodeDec d) := by
  unfold convChunk
  rw [if_pos ⟨hd, List.all_eq_true.mpr hdd⟩]

/-- C2.  Two candidate strings that differ only in one embedded
(maximal) run of decimal digits — a common part `a` (ending at a
non-digit, if nonempty), the runs `d1`/`d2`, and a common part `b`
(starting at a non-digit, if nonempty) — are ordered by the integer
values of the runs, regardless of digit counts: the string holding the
run with the smaller value compares smaller. -/
theorem natural_key_digitrun_order (a d1 d2 b : List Char)
    (ha : ∀ c, a.getLast? = some c → isDig c = false)
    (hd1 : d1 ≠ []) (hd1d : ∀ c ∈ d1, isDig c = true)
    (hd2 : d2 ≠ []) (hd2d : ∀ c ∈ d2, isDig c = true)
    (hb : ∀ c, b.head? = some c → isDig c = false)
    (hval : decodeDec d1 < decodeDec d2) :
    keyLt (natural_key (String.mk (a ++ d1 ++ b)))
      (natural_key (String.mk (a ++ d2 ++ b))) = true := by
  have hfix : ∀ d : List Char, String.mk (a ++ d ++ b) = String.mk (a ++ (d ++ b)) := by
    intro d
    rw [List.append_assoc]
  have hkey : ∀ d : List Char, natural_key (String.mk (a ++ (d ++ b))) =
      (splitD (a ++ (d ++ b))).map convChunk := fun _ => rfl
  have hx1 : splitD (d1 ++ b) = [] :: d1 :: splitD b :=
    splitD_digitrun_append d1 b hd1 hd1d hb
  have hx2 : splitD (d2 ++ b) = [] :: d2 :: splitD b :=
    splitD_digitrun_append d2 b hd2 hd2d hb
  have hcmp : kelemCmp (.n (decodeDec d1)) (.n (decodeDec d2)) = .lt := by
    simp [kelemCmp, natCmp_lt_of_lt hval]
  have hne : kelemCmp (.n (decodeDec d1)) (.n (decodeDec d2)) ≠ .eq := by
    rw [hcmp]
    simp
  by_cases hae : a = []
  · subst hae
    rw [hfix d1, hfix d2, hkey d1, hkey d2]
    simp only [List.nil_append]
    rw [hx1, hx2, List.map_cons, List.map_cons, List.map_cons, List.map_cons,
      convChunk_digitrun d1 hd1 hd1d, convChunk_digitrun d2 hd2 hd2d]
    unfold keyLt
    rw [show ∀ (R : List KElem),
        convChunk [] :: KElem.n (decodeDec d1) :: R =
        [convChunk []] ++ KElem.n (decodeDec d1) :: R from fun _ => rfl,
      show ∀ (R : List KElem),
        convChunk [] :: KElem.n (decodeDec d2) :: R =
        [convChunk []] ++ KElem.n (decodeDec d2) :: R from fun _ => rfl,
      keyCmp_append _ _ _ _ _ hne, hcmp]
    rfl
  · have hh1 : ∀ c, (d1 ++ b).head? = some c → isDig c = true := by
      intro c hc
      match d1, hd1, hd1d with
      | e :: d', _, hd1d =>
        have hec : e = c := by simpa using hc
        exact hec ▸ hd1d e (by simp)
    have hh2 : ∀ c, (d2 ++ b).head? = some c → isDig c = true := by
      intro c hc
      match d2, hd2, hd2d with
      | e :: d', _, hd2d =>
        have hec : e = c := by simpa using hc
        exact hec ▸ hd2d e (by simp)
    have hne1 : d1 ++ b ≠ [] := by simp [hd1]
    have hne2 : d2 ++ b ≠ [] := by simp [hd2]
    obtain ⟨I, L, hI1, hI2⟩ :=
      splitD_prepend a.length a (d1 ++ b) le_rfl hae ha hh1 hne1
    obtain ⟨I2, L2, hJ1, hJ2⟩ :=
      splitD_prepend a.length a (d2 ++ b) le_rfl hae ha hh2 hne2
    obtain ⟨rfl, rfl⟩ : I = I2 ∧ L = L2 := append_singleton_inj (hI1.symm.trans hJ1)
    rw [hfix d1, hfix d2, hkey d1, hkey d2, hI2, hJ2, hx1, hx2]
    simp only [List.tail_cons, List.map_append, List.map_cons]
    rw [convChunk_digitrun d1 hd1 hd1d, convChunk_digitrun d2 hd2 hd2d]
    unfold keyLt
    rw [show ∀ (R : List KElem),
        List.map convChunk I ++ convChunk L :: KElem.n (decodeDec d1) :: R =
        (List.map convChunk I ++ [convChunk L]) ++ KElem.n (decodeDec d1) :: R from
          fun _ => by simp,
      show ∀ (R : List KElem),
        List.map convChunk I ++ convChunk L :: KElem.n (decodeDec d2) :: R =
        (List.map convChunk I ++ [convChunk L]) ++ KElem.n (decodeDec d2) :: R from
          fun _ => by simp,
      keyCmp_append _ _ _ _ _ hne, hcmp]
    rfl

theorem natural_key_digitrun_order_witness :
    keyLt (natural_key (String.mk ("img".data ++ "2".data ++ ".jpg".data)))
      (natural_key (String.mk ("img".data ++ "10".data ++ ".jpg".data))) = true :=
  natural_key_digitrun_order "img".data "2".data "10".data ".jpg".data
    (by decide) (by decide) (by decide) (by decide) (by decide) (by decide) (by decide)

/-! ## Claim C1: normalization/deduplication of the extractor -/

/-- The dedup loop specified against an explicit `seen` set. -/
def dedupSeen : List String → List String → List String
  | _, [] => []
  | seen, x :: xs =>
    if x ∈ seen then dedupSeen seen xs else x :: dedupSeen (x :: seen) xs

theorem normLoop_eq_dedupSeen (base : String) :
    ∀ (urls seen : List String),
      normLoop base seen urls = dedupSeen seen (collectAbs base urls) := by
  intro urls
  induction urls with
  | nil => intro seen; rfl
  | cons u rest ih =>
    intro seen
    by_cases hc : clean_url u = ""
    · simp only [normLoop, collectAbs, List.filterMap_cons, hc, if_pos rfl]
      simpa [collectAbs] using ih seen
    · simp only [normLoop, collectAbs, List.filterMap_cons, if_neg hc]
      by_cases hseen : urljoin base (clean_url u) ∈ seen
      · simp only [if_pos hseen, dedupSeen, if_pos hseen]
        simpa [collectAbs] using ih seen
      · simp only [if_neg hseen, dedupSeen, if_neg hseen]
        have := ih (urljoin base (clean_url u) :: seen)
        simp only [collectAbs] at this
        rw [this]

theorem dedupSeen_eq_dedupFirst :
    ∀ (l seen : List String),
      dedupSeen seen l = dedupFirst (l.filter (fun y => y ∉ seen)) := by
  intro l
  induction l with
  | nil => intro seen; simp [dedupSeen, dedupFirst]
  | cons x xs ih =>
    intro seen
    by_cases hx : x ∈ seen
    · rw [List.filter_cons_of_neg (by simpa using hx)]
      simp only [dedupSeen, if_pos hx]
      exact ih seen
    · rw [List.filter_cons_of_pos (by simpa using hx)]
      simp only [dedupSeen, if_neg hx, dedupFirst]
      congr 1
      rw [ih (x :: seen), List.filter_filter]
      congr 1
      apply List.filter_congr
      intro a _
      by_cases h1 : a = x <;> by_cases h2 : a ∈ seen <;> simp [h1, h2]

theorem dedupFirst_mem_aux :
    ∀ (n : Nat) (l : List String), l.length ≤ n →
      ∀ y, y ∈ dedupFirst l ↔ y ∈ l := by
  intro n
  induction n with
  | zero =>
    intro l hl y
    have : l = [] := by cases l <;> simp_all
    subst this
    simp [dedupFirst]
  | succ n ih =>
    intro l hl y
    match l with
    | [] => simp [dedupFirst]
    | x :: xs =>
      simp only [dedupFirst]
      have hlen : (xs.filter (fun z => z ≠ x)).length ≤ n := by
        have h1 := List.length_filter_le (fun z => decide (z ≠ x)) xs
        simp only [List.length_cons] at hl
        omega
      rw [List.mem_cons, ih _ hlen y, List.mem_filter]
      by_cases h1 : y = x <;> simp [h1]

theorem dedupFirst_nodup_aux :
    ∀ (n : Nat) (l : List String), l.length ≤ n → (dedupFirst l).Nodup := by
  intro n
  induction n with
  | zero =>
    intro l hl
    have : l = [] := by cases l <;> simp_all
    subst this
    simp [dedupFirst]
  | succ n ih =>
    intro l hl
    match l with
    | [] => simp [dedupFirst]
    | x :: xs =>
      simp only [dedupFirst]
      have hlen : (xs.filter (fun z => z ≠ x)).length ≤ n := by
        have h1 := List.length_filter_le (fun z => decide (z ≠ x)) xs
        simp only [List.length_cons] at hl
        omega
      refine List.nodup_cons.mpr ⟨?_, ih _ hlen⟩
      intro hmem
      have := (dedupFirst_mem_aux _ _ hlen x).mp hmem
      rw [List.mem_filter] at this
      simp at this

theorem dedupFirst_sublist_aux :
    ∀ (n : Nat) (l : List String), l.length ≤ n → (dedupFirst l).Sublist l := by
  intro n
  induction n with
  | zero =>
    intro l hl
    have : l = [] := by cases l <;> simp_all
    subst this
    simp [dedupFirst]
  | succ n ih =>
    intro l hl
    match l with
    | [] => simp [dedupFirst]
    | x :: xs =>
      simp only [dedupFirst]
      have hlen : (xs.filter (fun z => z ≠ x)).length ≤ n := by
        have h1 := List.length_filter_le (fun z => decide (z ≠ x)) xs
        simp only [List.length_cons] at hl
        omega
      exact List.Sublist.cons₂ x ((ih _ hlen).trans (List.filter_sublist xs))

/-- C1. The extractor's normalize/absolutize/dedupe pass, for every base
URL and every list of collected raw values: the output is exactly the
first-occurrence deduplication of the cleaned, absolutized value
sequence — so it contains each final absolute URL at most once (Nodup),
preserves the original discovery order (it is a sublist of the collected
sequence), and keeps exactly the URLs that were collected. -/
theorem extractor_dedup_first_order (base : String) (urls : List String) :
    extractNorm base urls = dedupFirst (collectAbs base urls) ∧
    (extractNorm base urls).Nodup ∧
    (extractNorm base urls).Sublist (collectAbs base urls) ∧
    (∀ x, x ∈ extractNorm base urls ↔ x ∈ collectAbs base urls) := by
  have h1 : extractNorm base urls = dedupFirst (collectAbs base urls) := by
    unfold extractNorm
    rw [normLoop_eq_dedupSeen base urls [], dedupSeen_eq_dedupFirst]
    congr 1
    apply List.filter_eq_self.mpr
    intro a _
    simp
  refine ⟨h1, ?_, ?_, ?_⟩
  · rw [h1]; exact dedupFirst_nodup_aux _ _ le_rfl
  · rw [h1]; exact dedupFirst_sublist_aux _ _ le_rfl
  · intro x; rw [h1]; exact dedupFirst_mem_aux _ _ le_rfl x

/-! ## Claim C4: the normalization steps applied to each collected value -/

/-- The normalization the code applies to one (nonempty after cleaning)
collected value, lines 81–84: `clean_url` then `urljoin` against the
base URL. -/
def normalizeOne (base u : String) : String :=
  urljoin base (clean_url u)

/-- The four-step normalization as the specification words it:
HTML-entity unescape, trim surrounding whitespace, strip one layer of
surrounding matching quotes, resolve against the base — and nothing
else. -/
def claimNormalizeFour (base u : String) : String :=
  urljoin base (String.mk (stripOuterQuotes (pyStrip (pyUnescape u.data))))

/-- C4 counterexample.  The code trims surrounding whitespace a second
time after quote-stripping (`return u.strip()`), and `urllib`'s parser
preserves trailing spaces, so on the raw value `"a.jpg "` (a quoted
value with a space before the closing quote) the code resolves
`a.jpg` while the four-step composition resolves `a.jpg ` — the two
normalized outputs differ. -/
theorem clean_url_four_step_counterexample :
    normalizeOne "http://e.com/a/b" "\"a.jpg \"" ≠
      claimNormalizeFour "http://e.com/a/b" "\"a.jpg \"" := by decide

/-- C4 amended: normalization applies exactly five steps in order —
unescape, trim, strip one layer of surrounding matching quotes, trim
again, resolve against the base URL. -/
theorem clean_url_five_step (base u : String) :
    normalizeOne base u =
      urljoin base (String.mk (pyStrip (stripOuterQuotes (pyStrip (pyUnescape u.data))))) := rfl

/-! ## Claim C5: derived output filenames -/

/-- The filename rule as the claim words it: the 4-digit zero-padded
index followed by the extension of the URL's path component exactly as
it appears, when present and of length ≤ 6 including the dot, else
`.jpg`. -/
def claimFilename (idx : Nat) (u : String) : String :=
  let ext0 := splitextExt (urlparse [] u.data).path
  let ext := if ext0 = [] ∨ 6 < ext0.length then ".jpg".data else ext0
  String.mk (format04 idx ++ ext)

/-- The claim's filename rule amended by lowercasing the kept
extension. -/
def claimFilenameLower (idx : Nat) (u : String) : String :=
  let ext0 := splitextExt (urlparse [] u.data).path
  let ext := if ext0 = [] ∨ 6 < ext0.length then ".jpg".data else ext0.map lowerChar
  String.mk (format04 idx ++ ext)

/-- C5 counterexample.  The code lowercases the extension
(`...[1].lower()`), so a URL whose path extension is `.JPG` yields
`0001.jpg`, not the claim's `0001.JPG`. -/
theorem derive_fname_counterexample :
    deriveFname 1 "http://e.com/A.JPG" ≠ claimFilename 1 "http://e.com/A.JPG" := by decide

/-- C5 amended: the output filename is the zero-padded (width-4) index
followed by the *lowercased* extension of the URL's path component when
that extension is present and has length at most 6 including the dot,
and `.jpg` otherwise. -/
theorem derive_fname_spec (idx : Nat) (u : String) :
    deriveFname idx u = claimFilenameLower idx u := by
  unfold deriveFname claimFilenameLower
  dsimp only
  by_cases h : splitextExt (urlparse [] u.data).path = [] ∨
      6 < (splitextExt (urlparse [] u.data).path).length
  · have h' : (splitextExt (urlparse [] u.data).path).map lowerChar = [] ∨
        6 < ((splitextExt (urlparse [] u.data).path).map lowerChar).length := by
      rcases h with h | h
      · left; rw [h]; rfl
      · right; simpa using h
    rw [if_pos h', if_pos h]
  · have h' : ¬((splitextExt (urlparse [] u.data).path).map lowerChar = [] ∨
        6 < ((splitextExt (urlparse [] u.data).path).map lowerChar).length) := by
      intro hcon
      apply h
      rcases hcon with hcon | hcon
      · left; simpa using hcon
      · right; simpa using hcon
    rw [if_neg h', if_neg h]

/-! ## Claim C6: the NotAnImage failure condition -/

/-- C6. For a download whose HTTP response succeeded, the item fails
with the NotAnImage reason exactly when the declared content type does
not contain `image` (compared case-insensitively, as the code lowercases
the header first) and the URL does not match the image-extension
pattern; in particular a URL matching the pattern proceeds regardless of
the content type. -/
theorem download_one_not_an_image (url outPath ctype : String) (size : Nat)
    (interrupted : Bool) (dir : FS) :
    ((download_one url outPath (.success ctype size interrupted) dir).1.ok = false ∧
     (download_one url outPath (.success ctype size interrupted) dir).1.reason = .notAnImage) ↔
    (listContainsSub "image".data (ctype.data.map lowerChar) = false ∧
     is_probably_image_url url = false) := by
  simp only [download_one]
  by_cases h1 : listContainsSub "image".data (ctype.data.map lowerChar) = true
  · rw [if_neg (by simp [h1])]
    constructor
    · intro hcon
      rcases hcon with ⟨_, hr⟩
      split_ifs at hr
    · intro hcon
      rw [h1] at hcon
      simp at hcon
  · have h1' : listContainsSub "image".data (ctype.data.map lowerChar) = false := by
      simpa using h1
    by_cases h2 : is_probably_image_url url = true
    · rw [if_neg (by simp [h2])]
      constructor
      · intro hcon
        rcases hcon with ⟨_, hr⟩
        split_ifs at hr
      · intro hcon
        rw [h2] at hcon
        simp at hcon
    · have h2' : is_probably_image_url url = false := by simpa using h2
      rw [if_pos (by simp [h1', h2'])]
      simp [h1', h2']

/-! ## Claim C7: small files are failures and failed items leave no file -/

theorem download_one_path (url f : String) (o : HttpResponse) (dir : FS) :
    (download_one url f o dir).1.path = f := by
  cases o with
  | failure => rfl
  | success ctype size interrupted =>
    simp only [download_one]
    split_ifs <;> rfl

theorem download_one_dir_subset (url f : String) (o : HttpResponse) (dir : FS) :
    ∀ fe ∈ (download_one url f o dir).2, fe ∈ dir ∨ fe.1 = f := by
  intro fe hfe
  cases o with
  | failure => exact Or.inl hfe
  | success ctype size interrupted =>
    simp only [download_one] at hfe
    split_ifs at hfe
    · exact Or.inl hfe
    all_goals {
      dsimp only [writeFile] at hfe
      rcases List.mem_cons.mp hfe with rfl | hfe'
      · exact Or.inr rfl
      · exact Or.inl (List.mem_of_mem_filter hfe')
    }

/-- A completed (uninterrupted) write smaller than 1024 bytes is always
recorded as a failure. -/
theorem download_one_too_small (url f ctype : String) (size : Nat) (dir : FS)
    (h : size < 1024) :
    (download_one url f (.success ctype size false) dir).1.ok = false := by
  simp only [download_one]
  by_cases h1 : ¬listContainsSub "image".data (ctype.data.map lowerChar) = true ∧
      ¬is_probably_image_url url = true
  · rw [if_pos h1]
  · rw [if_neg h1]
    have hg : getSize f (writeFile f size dir) = size := by
      dsimp [getSize, writeFile]
      rw [List.lookup_cons_self]
      rfl
    rw [if_neg (by simp), hg, if_pos h]

/-- The per-item state invariant of the download loop: every file in
the directory after the loop was either there before it, or is the
output file of an item whose record is a success. -/
theorem downloadLoop_dir_invariant (resp : String → HttpResponse) :
    ∀ (urls : List String) (idx : Nat) (dir : FS),
      ∀ fe ∈ (downloadLoop resp idx dir urls).2,
        fe ∈ dir ∨
        ∃ r ∈ (downloadLoop resp idx dir urls).1, r.ok = true ∧ r.path = fe.1 := by
  intro urls
  induction urls with
  | nil =>
    intro idx dir fe hfe
    exact Or.inl hfe
  | cons u rest ih =>
    intro idx dir fe hfe
    simp only [downloadLoop] at hfe ⊢
    rcases ih (idx + 1)
        (if (download_one u (deriveFname idx u) (resp u) dir).1.ok = true
         then (download_one u (deriveFname idx u) (resp u) dir).2
         else removeFile (deriveFname idx u) (download_one u (deriveFname idx u) (resp u) dir).2)
        fe hfe with hin | ⟨r, hr, hro, hrp⟩
    · by_cases hok : (download_one u (deriveFname idx u) (resp u) dir).1.ok = true
      · rw [if_pos hok] at hin
        rcases download_one_dir_subset u (deriveFname idx u) (resp u) dir fe hin with hd | hf
        · exact Or.inl hd
        · refine Or.inr ⟨(download_one u (deriveFname idx u) (resp u) dir).1,
            List.mem_cons_self _ _, hok, ?_⟩
          rw [download_one_path, hf]
      · rw [if_neg hok] at hin
        dsimp only [removeFile] at hin
        have hmem := List.mem_of_mem_filter hin
        have hne : fe.1 ≠ deriveFname idx u := by
          have := List.of_mem_filter hin
          simpa using this
        rcases download_one_dir_subset u (deriveFname idx u) (resp u) dir fe hmem with hd | hf
        · exact Or.inl hd
        · exact absurd hf hne
    · exact Or.inr ⟨r, List.mem_cons_of_mem _ hr, hro, hrp⟩

/-- C7.  (1) Any item whose written file is smaller than 1024 bytes is
recorded as a failure, whatever the HTTP status and content type said;
(2) starting from the empty working directory, after the whole download
loop every file present belongs to an item whose record is a success —
failed items' partial files are removed before the next item runs, so
the archiver only ever sees files of successful downloads. -/
theorem download_small_failure_and_cleanup :
    (∀ (url f ctype : String) (size : Nat) (dir : FS), size < 1024 →
      (download_one url f (.success ctype size false) dir).1.ok = false) ∧
    (∀ (resp : String → HttpResponse) (urls : List String),
      ∀ fe ∈ (downloadLoop resp 1 [] urls).2,
        ∃ r ∈ (downloadLoop resp 1 [] urls).1, r.ok = true ∧ r.path = fe.1) := by
  constructor
  · intro url f ctype size dir h
    exact download_one_too_small url f ctype size dir h
  · intro resp urls fe hfe
    rcases downloadLoop_dir_invariant resp urls 1 [] fe hfe with h | h
    · simp at h
    · exact h

theorem download_small_failure_and_cleanup_witness :
    (download_one "http://e.com/x.jpg" "0001.jpg"
        (.success "image/png" 500 false) []).1.ok = false ∧
    ∃ r ∈ (downloadLoop (fun _ => .success "image/png" 5000 false)
        1 [] ["http://e.com/x.jpg"]).1, r.ok = true ∧ r.path = "0001.jpg" :=
  ⟨download_small_failure_and_cleanup.1 "http://e.com/x.jpg" "0001.jpg" "image/png"
      500 [] (by decide),
   download_small_failure_and_cleanup.2 (fun _ => .success "image/png" 5000 false)
      ["http://e.com/x.jpg"] ("0001.jpg", 5000) (by decide)⟩

/-! ## Claim C8: process exit codes -/

/-- C8.  The exit code is exactly 2 when obtaining the HTML failed, 3
when no candidates remain after filtering/truncation, 4 when the
candidate list was nonempty but every download failed (and then no
archive is produced), and 0 otherwise — in particular one successful
download forces exit code 0 and an archive, regardless of how many
other items failed. -/
theorem mainModel_exit_codes (cfg : Config) (fetched : Option (List String))
    (resp : String → HttpResponse) :
    (fetched = none → mainModel cfg fetched resp = ⟨2, none⟩) ∧
    (∀ urls, fetched = some urls →
      (candsOf cfg urls = [] → mainModel cfg fetched resp = ⟨3, none⟩) ∧
      (candsOf cfg urls ≠ [] →
        ((∀ r ∈ (downloadLoop resp 1 [] (sortedNatural (candsOf cfg urls))).1,
            r.ok = false) →
          mainModel cfg fetched resp = ⟨4, none⟩) ∧
        ((∃ r ∈ (downloadLoop resp 1 [] (sortedNatural (candsOf cfg urls))).1,
            r.ok = true) →
          (mainModel cfg fetched resp).exitCode = 0 ∧
          (mainModel cfg fetched resp).archive ≠ none))) := by
  constructor
  · rintro rfl
    rfl
  · intro urls hf
    subst hf
    constructor
    · intro hc
      simp only [mainModel]
      rw [if_pos (by simp [hc])]
    · intro hc
      have hne : (candsOf cfg urls).isEmpty = false := by
        simpa [List.isEmpty_iff] using hc
      constructor
      · intro hall
        have hcount : (downloadLoop resp 1 [] (sortedNatural (candsOf cfg urls))).1.countP
            (fun r => r.ok) = 0 := by
          apply List.countP_eq_zero.mpr
          intro r hr
          simp [hall r hr]
        simp only [mainModel]
        rw [if_neg (by simp [hne])]
        rw [if_pos hcount]
      · rintro ⟨r, hr, hok⟩
        have hcount : (downloadLoop resp 1 [] (sortedNatural (candsOf cfg urls))).1.countP
            (fun r => r.ok) ≠ 0 := by
          intro h0
          have := List.countP_eq_zero.mp h0 r hr
          simp [hok] at this
        simp only [mainModel]
        rw [if_neg (by simp [hne])]
        rw [if_neg hcount]
        split_ifs <;> simp

theorem mainModel_exit_codes_witness :
    mainModel ⟨false, 0, false, false⟩ none (fun _ => .failure) = ⟨2, none⟩ ∧
    mainModel ⟨false, 0, false, false⟩ (some ["http://e.com/x"]) (fun _ => .failure) =
      ⟨3, none⟩ ∧
    mainModel ⟨false, 0, false, false⟩ (some ["http://e.com/x.jpg"]) (fun _ => .failure) =
      ⟨4, none⟩ ∧
    (mainModel ⟨false, 0, false, false⟩ (some ["http://e.com/x.jpg"])
      (fun _ => .success "image/jpeg" 5000 false)).exitCode = 0 :=
  ⟨(mainModel_exit_codes ⟨false, 0, false, false⟩ none (fun _ => .failure)).1 rfl,
   ((mainModel_exit_codes ⟨false, 0, false, false⟩ (some ["http://e.com/x"])
      (fun _ => .failure)).2 ["http://e.com/x"] rfl).1 (by decide),
   (((mainModel_exit_codes ⟨false, 0, false, false⟩ (some ["http://e.com/x.jpg"])
      (fun _ => .failure)).2 ["http://e.com/x.jpg"] rfl).2 (by decide)).1 (by decide),
   ((((mainModel_exit_codes ⟨false, 0, false, false⟩ (some ["http://e.com/x.jpg"])
      (fun _ => .success "image/jpeg" 5000 false)).2 ["http://e.com/x.jpg"] rfl).2
        (by decide)).2 (by decide)).1⟩

/-! ## Claim C9: CBZ fallback produces the same entries in the same order -/

/-- The files of the working directory after the download phase of a
run (what `os.listdir(images_dir)` returns to the archiver). -/
def runFiles (cfg : Config) (urls : List String) (resp : String → HttpResponse) :
    List String :=
  ((downloadLoop resp 1 [] (sortedNatural (candsOf cfg urls))).2).map (fun p => p.1)

/-- C9.  When the RAR packer is not discoverable, or its invocation
fails, a run that downloaded at least one image still exits 0 and
produces a CBZ archive whose entries are exactly the file list the RAR
backend would have packed: the same files, in natural-sort filename
order, each entry the bare filename (the model's entry names carry no
directory prefix, matching `-ep` and `arcname=f`). -/
theorem archiver_fallback_refinement (cfg : Config) (urls : List String)
    (resp : String → HttpResponse)
    (hfall : cfg.rarFound = false ∨ cfg.rarWorks = false)
    (hc : candsOf cfg urls ≠ [])
    (hok : ∃ r ∈ (downloadLoop resp 1 [] (sortedNatural (candsOf cfg urls))).1,
      r.ok = true) :
    mainModel cfg (some urls) resp =
      ⟨0, some (.cbz, make_cbz_entries (runFiles cfg urls resp))⟩ ∧
    make_cbz_entries (runFiles cfg urls resp) =
      make_cbr_files (runFiles cfg urls resp) ∧
    (∀ fls : List String, make_cbz_entries fls = make_cbr_files fls) := by
  refine ⟨?_, rfl, fun _ => rfl⟩
  obtain ⟨r, hr, hok⟩ := hok
  have hne : (candsOf cfg urls).isEmpty = false := by
    simpa [List.isEmpty_iff] using hc
  have hcount : (downloadLoop resp 1 [] (sortedNatural (candsOf cfg urls))).1.countP
      (fun r => r.ok) ≠ 0 := by
    intro h0
    have := List.countP_eq_zero.mp h0 r hr
    simp [hok] at this
  simp only [mainModel]
  rw [if_neg (by simp [hne])]
  rw [if_neg hcount]
  rcases hfall with h | h
  · rw [if_neg (by simp [h])]
    rfl
  · by_cases hrf : cfg.rarFound = true
    · rw [if_pos hrf, if_neg (by simp [h])]
      rfl
    · rw [if_neg hrf]
      rfl

theorem archiver_fallback_refinement_witness :
    mainModel ⟨false, 0, false, false⟩ (some ["http://e.com/b2.jpg", "http://e.com/b10.jpg"])
        (fun _ => .success "image/jpeg" 5000 false) =
      ⟨0, some (.cbz, make_cbz_entries (runFiles ⟨false, 0, false, false⟩
        ["http://e.com/b2.jpg", "http://e.com/b10.jpg"]
        (fun _ => .success "image/jpeg" 5000 false)))⟩ ∧
    make_cbz_entries (runFiles ⟨false, 0, false, false⟩
        ["http://e.com/b2.jpg", "http://e.com/b10.jpg"]
        (fun _ => .success "image/jpeg" 5000 false)) =
      make_cbr_files (runFiles ⟨false, 0, false, false⟩
        ["http://e.com/b2.jpg", "http://e.com/b10.jpg"]
        (fun _ => .success "image/jpeg" 5000 false)) ∧
    (∀ fls : List String, make_cbz_entries fls = make_cbr_files fls) :=
  archiver_fallback_refinement ⟨false, 0, false, false⟩
    ["http://e.com/b2.jpg", "http://e.com/b10.jpg"]
    (fun _ => .success "image/jpeg" 5000 false)
    (Or.inl rfl) (by decide) (by decide)
